import Mathlib

/-!
Esfera: ray-sphere intersection and Phong shading.

A shallow embedding of the two demonstration programs of the repository,
`cg_filler/colors.cpp` (inlined pinhole camera, `calculate_color`) and
`cg_filler - Copia/colors.cpp` with `camera.h` (camera class, `intersect`,
shading inlined in `main`).

Numbers: the values of the C++ type `double` are elements of a linearly ordered
field `K`, so every definition below is executable at `K = ℚ`.  The `<cmath>`
functions `sqrt`, `pow` and `tan` are parameters of the definitions that call
them.  `Uint8` and `Uint32` are natural numbers reduced modulo `2^8` and `2^32`.

Two embeddings of the arithmetic are given.  The namespaces `cg_filler` and
`cg_filler_copia` take every operation exactly; they carry the statements whose
truth does not depend on rounding.  The namespace `ieee` repeats the vector
operations, `intersect`, `calculate_color`, the camera and the pixel loop of the
camera variant with the result of every arithmetic operation passed through a
rounding function `rnd`; `round_double` is the rounding of IEEE binary64, to
nearest with ties to even, and the `sqrt` of doubles is the rounded
`Real.sqrt`.  Overflow, subnormal results, infinities and NaN are outside both
embeddings.
-/

namespace Esfera

/-! ## vec3.h and ray.h -/

/-- Modelled from the spec: `vec3.h` is not among the sources.  The spec's data
model has a "3-component vector: (x, y, z) double-precision triple; used
interchangeably for points, directions, and colors". -/
@[ext]
structure vec3 (K : Type) where
  x : K
  y : K
  z : K
deriving DecidableEq

namespace vec3

variable {K : Type} [LinearOrderedField K]

/-- Modelled from the spec: `operator+` of `vec3.h`, componentwise. -/
instance : Add (vec3 K) := ⟨fun u v => ⟨u.x + v.x, u.y + v.y, u.z + v.z⟩⟩

/-- Modelled from the spec: binary `operator-` of `vec3.h`, componentwise. -/
instance : Sub (vec3 K) := ⟨fun u v => ⟨u.x - v.x, u.y - v.y, u.z - v.z⟩⟩

/-- Modelled from the spec: unary `operator-` of `vec3.h`. -/
instance : Neg (vec3 K) := ⟨fun v => ⟨-v.x, -v.y, -v.z⟩⟩

/-- Modelled from the spec: `operator*(vec3, vec3)` of `vec3.h`, the
componentwise product used for `light_intensity * Kd`. -/
instance : Mul (vec3 K) := ⟨fun u v => ⟨u.x * v.x, u.y * v.y, u.z * v.z⟩⟩

/-- Modelled from the spec: `operator*(double, vec3)` of `vec3.h`. -/
instance : HMul K (vec3 K) (vec3 K) := ⟨fun t v => ⟨t * v.x, t * v.y, t * v.z⟩⟩

/-- Modelled from the spec: `operator*(vec3, double)` of `vec3.h`. -/
instance : HMul (vec3 K) K (vec3 K) := ⟨fun v t => ⟨t * v.x, t * v.y, t * v.z⟩⟩

/-- Modelled from the spec: `operator/(vec3, double)` of `vec3.h`, which
multiplies by the reciprocal. -/
instance : HDiv (vec3 K) K (vec3 K) := ⟨fun v t => ⟨(1 / t) * v.x, (1 / t) * v.y, (1 / t) * v.z⟩⟩

end vec3

section VecOps

variable {K : Type} [LinearOrderedField K]

/-- Modelled from the spec: `dot` of `vec3.h` (the `D·D`, `N·L` of the spec). -/
def dot (u v : vec3 K) : K := u.x * v.x + u.y * v.y + u.z * v.z

/-- Modelled from the spec: `cross` of `vec3.h`. -/
def cross (u v : vec3 K) : vec3 K :=
  ⟨u.y * v.z - u.z * v.y, u.z * v.x - u.x * v.z, u.x * v.y - u.y * v.x⟩

/-- Modelled from the spec: `vec3::length_squared` of `vec3.h`. -/
def length_squared (v : vec3 K) : K := v.x * v.x + v.y * v.y + v.z * v.z

/-- Modelled from the spec: `vec3::length` of `vec3.h`, the square root of
`length_squared`. -/
def length (sqrt : K → K) (v : vec3 K) : K := sqrt (length_squared v)

/-- Modelled from the spec: `unit_vector` of `vec3.h` (the spec's `unit(·)`),
the vector divided by its length. -/
def unit_vector (sqrt : K → K) (v : vec3 K) : vec3 K := v / length sqrt v

/-- Modelled from the spec: `reflect` of `vec3.h` (the spec's
`R = reflect(−L, N)`), `v - 2*dot(v,n)*n`. -/
def reflect (v n : vec3 K) : vec3 K := v - (2 * dot v n) * n

/-- Modelled from the spec: the scalar clamp behind `clamp(color, 0.0, 1.0)`. -/
def clamp_scalar (x lo hi : K) : K := if x < lo then lo else if hi < x then hi else x

/-- Modelled from the spec: `clamp(vec3, double, double)` of `vec3.h` (the spec's
`clamp(diffuse + specular, 0, 1)`), componentwise. -/
def clamp (v : vec3 K) (lo hi : K) : vec3 K :=
  ⟨clamp_scalar v.x lo hi, clamp_scalar v.y lo hi, clamp_scalar v.z lo hi⟩

/-- Modelled from the spec: class `ray` of `ray.h`, "origin point + direction
vector; immutable once constructed". -/
structure ray (K : Type) where
  origin : vec3 K
  direction : vec3 K

/-- Modelled from the spec: `ray::at` of `ray.h`, "`at(t)` evaluates
origin + t·direction". -/
def ray.at_ (r : ray K) (t : K) : vec3 K := r.origin + t * r.direction

end VecOps

/-! ## Integer conversions and pixel packing -/

section Pixels

variable {K : Type} [LinearOrderedField K] [FloorRing K]

/-- Conversion of a `double` to an integer type truncates toward zero. -/
def truncate (x : K) : Int := if 0 ≤ x then Int.floor x else Int.ceil x

/-- The conversion `double -> Uint8` (`static_cast<Uint8>` and the implicit
conversion at a `Uint8` parameter): truncation, kept modulo `2^8`. -/
def to_Uint8 (x : K) : Nat := Int.toNat (truncate x % 256)

end Pixels

/-- The call `SDL_MapRGB(SDL_AllocFormat(SDL_PIXELFORMAT_RGB888), r, g, b)` of the
windowing library: the three 8-bit channels packed as `0x00RRGGBB`. -/
def SDL_MapRGB (r g b : Nat) : Nat :=
  ((r % 256) <<< 16 ||| (g % 256) <<< 8 ||| (b % 256)) % 2 ^ 32

/-- The expression `(255 << 24) | (red << 16) | (green << 8) | blue` of the camera
variant, stored into a `Uint32`. -/
def pack_ARGB (red green blue : Nat) : Nat :=
  (255 <<< 24 ||| red <<< 16 ||| green <<< 8 ||| blue) % 2 ^ 32

/-- The loop `for (i = 0; i < n; ++i) pixels[i] = val;`. -/
def fill_loop (n : Nat) (val : Nat) (pixels : Nat → Nat) : Nat → Nat :=
  (List.range n).foldl (fun px i => Function.update px i val) pixels

/-- The nested loop over rows `j` (outer) and columns `i` (inner) that stores
`f i j` at `pixels[j * nCol + i]`. -/
def render_loop (nCol nLin : Nat) (f : Nat → Nat → Nat) (pixels : Nat → Nat) : Nat → Nat :=
  (List.range nLin).foldl
    (fun px j => (List.range nCol).foldl (fun px i => Function.update px (j * nCol + i) (f i j)) px)
    pixels

/-! ## Double-precision rounding -/

section Rounding

variable {K : Type} [LinearOrderedField K] [FloorRing K]

/-- The integer nearest to `q`, the even one of the two when `q` is half way. -/
def round_half_even (q : K) : Int :=
  if q - (Int.floor q : K) < 1 / 2 then Int.floor q
  else if 1 / 2 < q - (Int.floor q : K) then Int.floor q + 1
  else if Int.floor q % 2 = 0 then Int.floor q
  else Int.floor q + 1

/-- The `double` nearest to `x`: for `2^e <= |x| < 2^(e+1)` the multiple of
`2^(e-52)` nearest to `x`, ties to the even multiple (a 53-bit significand).
The exponent range of binary64 is not bounded here. -/
def round_double (x : K) : K :=
  if x = 0 then 0
  else (round_half_even (x / 2 ^ (Int.log 2 |x| - 52)) : K) * 2 ^ (Int.log 2 |x| - 52)

end Rounding

/-! ## vec3.h, ray.h and the two programs in rounded arithmetic -/

namespace ieee

section Code

variable {K : Type} [LinearOrderedField K]

/-- Modelled from the spec: `operator+` of `vec3.h`, one rounded addition per
component. -/
def add (rnd : K → K) (u v : vec3 K) : vec3 K :=
  ⟨rnd (u.x + v.x), rnd (u.y + v.y), rnd (u.z + v.z)⟩

/-- Modelled from the spec: binary `operator-` of `vec3.h`, one rounded
subtraction per component. -/
def sub (rnd : K → K) (u v : vec3 K) : vec3 K :=
  ⟨rnd (u.x - v.x), rnd (u.y - v.y), rnd (u.z - v.z)⟩

/-- Modelled from the spec: `operator*(vec3, vec3)` of `vec3.h`. -/
def mul (rnd : K → K) (u v : vec3 K) : vec3 K :=
  ⟨rnd (u.x * v.x), rnd (u.y * v.y), rnd (u.z * v.z)⟩

/-- Modelled from the spec: `operator*(double, vec3)` of `vec3.h`, which
`operator*(vec3, double)` calls. -/
def smul (rnd : K → K) (t : K) (v : vec3 K) : vec3 K :=
  ⟨rnd (t * v.x), rnd (t * v.y), rnd (t * v.z)⟩

/-- Modelled from the spec: `operator/(vec3, double)` of `vec3.h`, the product by
the rounded reciprocal. -/
def div (rnd : K → K) (v : vec3 K) (t : K) : vec3 K := smul rnd (rnd (1 / t)) v

/-- Modelled from the spec: `dot` of `vec3.h`, three rounded products summed from
the left. -/
def dot (rnd : K → K) (u v : vec3 K) : K :=
  rnd (rnd (rnd (u.x * v.x) + rnd (u.y * v.y)) + rnd (u.z * v.z))

/-- Modelled from the spec: `cross` of `vec3.h`. -/
def cross (rnd : K → K) (u v : vec3 K) : vec3 K :=
  ⟨rnd (rnd (u.y * v.z) - rnd (u.z * v.y)), rnd (rnd (u.z * v.x) - rnd (u.x * v.z)),
    rnd (rnd (u.x * v.y) - rnd (u.y * v.x))⟩

/-- Modelled from the spec: `vec3::length_squared` of `vec3.h`. -/
def length_squared (rnd : K → K) (v : vec3 K) : K :=
  rnd (rnd (rnd (v.x * v.x) + rnd (v.y * v.y)) + rnd (v.z * v.z))

/-- Modelled from the spec: `vec3::length` of `vec3.h`; `sqrt` is the `sqrt` of
doubles. -/
def length (rnd sqrt : K → K) (v : vec3 K) : K := sqrt (length_squared rnd v)

/-- Modelled from the spec: `unit_vector` of `vec3.h`. -/
def unit_vector (rnd sqrt : K → K) (v : vec3 K) : vec3 K := div rnd v (length rnd sqrt v)

/-- Modelled from the spec: `reflect` of `vec3.h`, `v - 2*dot(v,n)*n`. -/
def reflect (rnd : K → K) (v n : vec3 K) : vec3 K :=
  sub rnd v (smul rnd (rnd (2 * dot rnd v n)) n)

/-- Modelled from the spec: `ray::at` of `ray.h`. -/
def at_ (rnd : K → K) (r : ray K) (t : K) : vec3 K := add rnd r.origin (smul rnd t r.direction)

/-- `intersect` of `cg_filler - Copia/colors.cpp`, lines 9-18, every operation
rounded.  The result is the returned `bool` and the value of `t` afterwards. -/
def intersect (rnd sqrt : K → K) (r : ray K) (sphereCenter : vec3 K) (sphereRadius : K)
    (t : K) : Bool × K :=
  let oc := sub rnd r.origin sphereCenter
  let a := dot rnd r.direction r.direction
  let b := rnd (2 * dot rnd oc r.direction)
  let c := rnd (dot rnd oc oc - rnd (sphereRadius * sphereRadius))
  let discriminant := rnd (rnd (b * b) - rnd (rnd (4 * a) * c))
  if discriminant < 0 then (false, t)
  else (true, rnd (rnd (-b - sqrt discriminant) / rnd (2 * a)))

/-- The surface normal at the hit point: lines 77-78 of `main` in the camera
variant and lines 20-21 of `calculate_color`. -/
def hit_normal (rnd sqrt : K → K) (r : ray K) (center : vec3 K) (t : K) : vec3 K :=
  unit_vector rnd sqrt (sub rnd (at_ rnd r t) center)

/-- The body of the `if (discriminant > 0)` branch of `calculate_color`, lines
20-34, every operation rounded. -/
def calculate_color_hit (rnd sqrt : K → K) (pow : K → K → K) (center : vec3 K) (r : ray K)
    (light_intensity light_position Kd Ks : vec3 K) (m : K) (t : K) : vec3 K :=
  let P := at_ rnd r t
  let N := hit_normal rnd sqrt r center t
  let L := unit_vector rnd sqrt (sub rnd light_position P)
  let V := unit_vector rnd sqrt (-r.direction)
  let R := unit_vector rnd sqrt (reflect rnd (-L) N)
  let Id := smul rnd (max (dot rnd L N) 0) (mul rnd light_intensity Kd)
  let Ie := smul rnd (pow (max (dot rnd V R) 0) m) (mul rnd light_intensity Ks)
  let final_color := add rnd Id Ie
  ⟨final_color.x, final_color.y, final_color.z⟩

/-- `calculate_color` of `cg_filler/colors.cpp`, lines 11-38, every operation
rounded. -/
def calculate_color (rnd sqrt : K → K) (pow : K → K → K) (center : vec3 K) (radius : K)
    (r : ray K) (light_intensity light_position Kd Ks : vec3 K) (m : K) : vec3 K :=
  let oc := sub rnd r.origin center
  let a := dot rnd r.direction r.direction
  let b := rnd (2 * dot rnd oc r.direction)
  let c := rnd (dot rnd oc oc - rnd (radius * radius))
  let discriminant := rnd (rnd (b * b) - rnd (rnd (4 * a) * c))
  if discriminant > 0 then
    let t := rnd (rnd (-b - sqrt discriminant) / rnd (2 * a))
    calculate_color_hit rnd sqrt pow center r light_intensity light_position Kd Ks m t
  else
    ⟨0, 0, 0⟩

end Code

end ieee

/-! ## cg_filler/colors.cpp -/

namespace cg_filler

section Code

variable {K : Type} [LinearOrderedField K]

/-- The body of the `if (discriminant > 0)` branch of `calculate_color`, lines
20-34, as a function of the root `t` computed on line 19. -/
def calculate_color_hit (sqrt : K → K) (pow : K → K → K) (center : vec3 K) (r : ray K)
    (light_intensity light_position Kd Ks : vec3 K) (m : K) (t : K) : vec3 K :=
  let P := r.at_ t
  let N := unit_vector sqrt (P - center)
  let L := unit_vector sqrt (light_position - P)
  let V := unit_vector sqrt (-r.direction)
  let R := unit_vector sqrt (reflect (-L) N)
  let Id := light_intensity * Kd * max (dot L N) 0
  let Ie := light_intensity * Ks * pow (max (dot V R) 0) m
  let final_color := Id + Ie
  ⟨final_color.x, final_color.y, final_color.z⟩

/-- `calculate_color` of `cg_filler/colors.cpp`, lines 11-38. -/
def calculate_color (sqrt : K → K) (pow : K → K → K) (center : vec3 K) (radius : K) (r : ray K)
    (light_intensity light_position Kd Ks : vec3 K) (m : K) : vec3 K :=
  let oc := r.origin - center
  let a := dot r.direction r.direction
  let b := 2 * dot oc r.direction
  let c := dot oc oc - radius * radius
  let discriminant := b * b - 4 * a * c
  if discriminant > 0 then
    let t := (-b - sqrt discriminant) / (2 * a)
    calculate_color_hit sqrt pow center r light_intensity light_position Kd Ks m t
  else
    ⟨0, 0, 0⟩

def nCol : Nat := 800
def nLin : Nat := 800
def wJanela : K := 2
def hJanela : K := 2
def dJanela : K := 1
def rEsfera : K := 0.5
def center : vec3 K := ⟨0, 0, -(dJanela + rEsfera + 1)⟩
def light_intensity : vec3 K := ⟨0.7, 0.7, 0.7⟩
def light_position : vec3 K := ⟨0, 5, 0⟩
def Kd : vec3 K := ⟨0.8, 0.1, 0.1⟩
def Ks : vec3 K := ⟨0.5, 0.5, 0.5⟩
def m : K := 32
def bgColor : vec3 K := ⟨100, 100, 100⟩

/-- The ray built on lines 111-113 of `main` for pixel column `i`, row `j`. -/
def pixel_ray (i j : Nat) : ray K :=
  let u : K := (i : K) / ((nCol : K) - 1)
  let v : K := (j : K) / ((nLin : K) - 1)
  ⟨⟨0, 0, 0⟩, ⟨u * wJanela - wJanela / 2, v * hJanela - hJanela / 2, -dJanela⟩⟩

/-- Line 114 of `main`: the colour of pixel `(i, j)`. -/
def pixel_color (sqrt : K → K) (pow : K → K → K) (i j : Nat) : vec3 K :=
  calculate_color sqrt pow center rEsfera (pixel_ray i j) light_intensity light_position Kd Ks m

variable [FloorRing K]

/-- Line 103 of `main`: the packed background colour. -/
def bgColorUint (K : Type) [LinearOrderedField K] [FloorRing K] : Nat :=
  SDL_MapRGB (to_Uint8 (bgColor (K := K)).x) (to_Uint8 (bgColor (K := K)).y)
    (to_Uint8 (bgColor (K := K)).z)

/-- Line 118 of `main`: the packed colour stored for pixel `(i, j)`. -/
def pixel_color_uint (sqrt : K → K) (pow : K → K → K) (i j : Nat) : Nat :=
  let pixel_color := pixel_color sqrt pow i j
  SDL_MapRGB (to_Uint8 pixel_color.x) (to_Uint8 pixel_color.y) (to_Uint8 pixel_color.z)

/-- The pixel buffer of `main` after lines 100-121: allocated with unspecified
contents `pixels0`, filled with the background colour, then written by the
render loop. -/
def main_pixels (sqrt : K → K) (pow : K → K → K) (pixels0 : Nat → Nat) : Nat → Nat :=
  render_loop nCol nLin (pixel_color_uint sqrt pow)
    (fill_loop (nCol * nLin) (bgColorUint K) pixels0)

end Code

end cg_filler

/-! ## cg_filler - Copia/colors.cpp in exact arithmetic -/

namespace cg_filler_copia

section Code

variable {K : Type} [LinearOrderedField K]

/-- `intersect` of `cg_filler - Copia/colors.cpp`, lines 9-18.  The reference
parameter `double& t` is passed in and returned: the result is the returned
`bool` and the value of `t` afterwards. -/
def intersect (sqrt : K → K) (r : ray K) (sphereCenter : vec3 K) (sphereRadius : K) (t : K) :
    Bool × K :=
  let oc := r.origin - sphereCenter
  let a := dot r.direction r.direction
  let b := 2 * dot oc r.direction
  let c := dot oc oc - sphereRadius * sphereRadius
  let discriminant := b * b - 4 * a * c
  if discriminant < 0 then (false, t)
  else (true, (-b - sqrt discriminant) / (2 * a))

def width : Nat := 800
def height : Nat := 800
def sphereCenter : vec3 K := ⟨0, 0, -5⟩
def sphereRadius : K := 1
def viewPos : vec3 K := ⟨0, 0, 0⟩

/-- Line 81 of `main`: the diffuse factor. -/
def diff (normal lightDir : vec3 K) : K := max 0 (dot normal lightDir)

/-- Lines 82-83 of `main`: the diffuse colour. -/
def diffuse (normal lightDir : vec3 K) : vec3 K :=
  let diffuse_color : vec3 K := ⟨1, 0, 0⟩
  diff normal lightDir * diffuse_color

/-- Lines 100-103 of `main`: the packed pixel written for a miss. -/
def miss_pixel : Nat :=
  let red := 173
  let green := 216
  let blue := 230
  pack_ARGB red green blue

end Code

end cg_filler_copia

/-! ## cg_filler - Copia: camera.h and the pixel loop in rounded arithmetic -/

namespace ieee

section Camera

open cg_filler_copia

variable {K : Type} [LinearOrderedField K]

/-- The fallback definition of `M_PI` in `camera.h`, lines 7-9 (the same decimal
literal that `<cmath>` gives where it defines `M_PI` itself), converted to a
`double`. -/
def M_PI (rnd : K → K) : K := rnd 3.14159265358979323846

/-- `camera::degrees_to_radians`, `camera.h` lines 44-46. -/
def degrees_to_radians (rnd : K → K) (degrees : K) : K := rnd (rnd (degrees * M_PI rnd) / 180)

/-- The data members of class `camera`, `camera.h` lines 39-42. -/
structure camera (K : Type) where
  origin : vec3 K
  lower_left_corner : vec3 K
  horizontal : vec3 K
  vertical : vec3 K

/-- The constructor of class `camera`, `camera.h` lines 12-32; `tan` is the `tan`
of `<cmath>`. -/
def camera.new (rnd sqrt tan : K → K) (lookfrom lookat vup : vec3 K) (vfov aspect_ratio : K) :
    camera K :=
  let theta := degrees_to_radians rnd vfov
  let h := tan (rnd (theta / 2))
  let viewport_height := rnd (2 * h)
  let viewport_width := rnd (aspect_ratio * viewport_height)
  let w := unit_vector rnd sqrt (sub rnd lookfrom lookat)
  let u := unit_vector rnd sqrt (cross rnd vup w)
  let v := cross rnd w u
  let origin := lookfrom
  let horizontal := smul rnd viewport_width u
  let vertical := smul rnd viewport_height v
  { origin := origin
    lower_left_corner :=
      sub rnd (sub rnd (sub rnd origin (div rnd horizontal 2)) (div rnd vertical 2)) w
    horizontal := horizontal
    vertical := vertical }

/-- `camera::get_ray`, `camera.h` lines 34-36. -/
def camera.get_ray (rnd : K → K) (cam : camera K) (s t : K) : ray K :=
  ⟨cam.origin,
    sub rnd (add rnd (add rnd cam.lower_left_corner (smul rnd s cam.horizontal))
      (smul rnd t cam.vertical)) cam.origin⟩

/-- Line 25 of `main`: the direction of the light. -/
def lightDir (rnd sqrt : K → K) : vec3 K := unit_vector rnd sqrt ⟨0, 5, 5⟩

/-- The camera built on lines 29-35 of `main`. -/
def cam (rnd sqrt tan : K → K) : camera K :=
  camera.new rnd sqrt tan ⟨0, 0, 0⟩ ⟨0, 0, -1⟩ ⟨0, 1, 0⟩ 90 (rnd ((width : K) / (height : K)))

/-- The ray of pixel column `x`, row `y`: lines 71-73 of `main`. -/
def pixel_ray (rnd sqrt tan : K → K) (x y : Nat) : ray K :=
  let u : K := rnd ((x : K) / ((width : K) - 1))
  let v : K := rnd (1 - rnd ((y : K) / ((height : K) - 1)))
  camera.get_ray rnd (cam rnd sqrt tan) u v

/-- Lines 81-83 of `main`: the diffuse colour. -/
def diffuse (rnd : K → K) (normal lightDir : vec3 K) : vec3 K :=
  let diff := max 0 (dot rnd normal lightDir)
  let diffuse_color : vec3 K := ⟨1, 0, 0⟩
  smul rnd diff diffuse_color

/-- Lines 86-90 of `main`: the specular colour; `pow` is the `pow` of `<cmath>`. -/
def specular (rnd sqrt : K → K) (pow : K → K → K) (hitPoint normal lightDir : vec3 K) :
    vec3 K :=
  let viewDir := unit_vector rnd sqrt (sub rnd viewPos hitPoint)
  let reflectDir := reflect rnd (-lightDir) normal
  let spec := pow (max (dot rnd viewDir reflectDir) 0) 32
  let specular_color : vec3 K := ⟨1, 1, 1⟩
  smul rnd spec specular_color

variable [FloorRing K]

/-- Lines 93-97 of `main`: the three channels written for a hit, from the
diffuse and specular colours. -/
def hit_channels (rnd : K → K) (diffuse specular : vec3 K) : Nat × Nat × Nat :=
  let color := add rnd diffuse specular
  let color := clamp color 0 1
  let red := to_Uint8 (rnd (color.x * 255))
  let green := to_Uint8 (rnd (color.y * 255))
  let blue := to_Uint8 (rnd (color.z * 255))
  (red, green, blue)

/-- Lines 93-98 of `main`: the packed pixel written for a hit. -/
def hit_pixel (rnd : K → K) (diffuse specular : vec3 K) : Nat :=
  let (red, green, blue) := hit_channels rnd diffuse specular
  pack_ARGB red green blue

/-- Lines 75-104 of `main`: the value stored for the pixel whose ray is `r`.  The
local `double t` is declared without a value: `t0` stands for its unspecified
contents. -/
def pixel_shade (rnd sqrt : K → K) (pow : K → K → K) (t0 : K) (r : ray K) : Nat :=
  let (hit, t) := intersect rnd sqrt r sphereCenter sphereRadius t0
  if hit then
    let hitPoint := at_ rnd r t
    let normal := hit_normal rnd sqrt r sphereCenter t
    hit_pixel rnd (diffuse rnd normal (lightDir rnd sqrt))
      (specular rnd sqrt pow hitPoint normal (lightDir rnd sqrt))
  else
    miss_pixel

/-- The body of the pixel loop, lines 71-104 of `main`, as the value stored at
`pixels[y * width + x]`. -/
def pixel_value (rnd sqrt tan : K → K) (pow : K → K → K) (t0 : K) (x y : Nat) : Nat :=
  pixel_shade rnd sqrt pow t0 (pixel_ray rnd sqrt tan x y)

/-- The pixel buffer of `main` after lines 66-106: zeroed by `memset`, then
written by the pixel loop. -/
def main_pixels (rnd sqrt tan : K → K) (pow : K → K → K) (t0 : K) : Nat → Nat :=
  render_loop width height (pixel_value rnd sqrt tan pow t0) (fun _ => 0)

end Camera

end ieee

/-! ## Componentwise reading of the vector operations -/

section Components

variable {K : Type} [LinearOrderedField K]

@[simp] theorem vec3.add_x (u v : vec3 K) : (u + v).x = u.x + v.x := rfl
@[simp] theorem vec3.add_y (u v : vec3 K) : (u + v).y = u.y + v.y := rfl
@[simp] theorem vec3.add_z (u v : vec3 K) : (u + v).z = u.z + v.z := rfl
@[simp] theorem vec3.sub_x (u v : vec3 K) : (u - v).x = u.x - v.x := rfl
@[simp] theorem vec3.sub_y (u v : vec3 K) : (u - v).y = u.y - v.y := rfl
@[simp] theorem vec3.sub_z (u v : vec3 K) : (u - v).z = u.z - v.z := rfl
@[simp] theorem vec3.neg_x (v : vec3 K) : (-v).x = -v.x := rfl
@[simp] theorem vec3.neg_y (v : vec3 K) : (-v).y = -v.y := rfl
@[simp] theorem vec3.neg_z (v : vec3 K) : (-v).z = -v.z := rfl
@[simp] theorem vec3.mul_x (u v : vec3 K) : (u * v).x = u.x * v.x := rfl
@[simp] theorem vec3.mul_y (u v : vec3 K) : (u * v).y = u.y * v.y := rfl
@[simp] theorem vec3.mul_z (u v : vec3 K) : (u * v).z = u.z * v.z := rfl
@[simp] theorem vec3.smul_x (t : K) (v : vec3 K) : (t * v).x = t * v.x := rfl
@[simp] theorem vec3.smul_y (t : K) (v : vec3 K) : (t * v).y = t * v.y := rfl
@[simp] theorem vec3.smul_z (t : K) (v : vec3 K) : (t * v).z = t * v.z := rfl
@[simp] theorem vec3.mul_scalar_x (v : vec3 K) (t : K) : (v * t).x = t * v.x := rfl
@[simp] theorem vec3.mul_scalar_y (v : vec3 K) (t : K) : (v * t).y = t * v.y := rfl
@[simp] theorem vec3.mul_scalar_z (v : vec3 K) (t : K) : (v * t).z = t * v.z := rfl
@[simp] theorem vec3.div_x (v : vec3 K) (t : K) : (v / t).x = (1 / t) * v.x := rfl
@[simp] theorem vec3.div_y (v : vec3 K) (t : K) : (v / t).y = (1 / t) * v.y := rfl
@[simp] theorem vec3.div_z (v : vec3 K) (t : K) : (v / t).z = (1 / t) * v.z := rfl

theorem dot_self_eq_length_squared (v : vec3 K) : dot v v = length_squared v := rfl

theorem length_squared_nonneg (v : vec3 K) : 0 ≤ length_squared v := by
  unfold length_squared
  nlinarith [mul_self_nonneg v.x, mul_self_nonneg v.y, mul_self_nonneg v.z]

theorem length_squared_pos {v : vec3 K} (h : v ≠ ⟨0, 0, 0⟩) : 0 < length_squared v := by
  rcases lt_or_eq_of_le (length_squared_nonneg v) with h0 | h0
  · exact h0
  · exfalso
    apply h
    unfold length_squared at h0
    have hx : v.x * v.x = 0 := by
      nlinarith [mul_self_nonneg v.x, mul_self_nonneg v.y, mul_self_nonneg v.z]
    have hy : v.y * v.y = 0 := by
      nlinarith [mul_self_nonneg v.x, mul_self_nonneg v.y, mul_self_nonneg v.z]
    have hz : v.z * v.z = 0 := by
      nlinarith [mul_self_nonneg v.x, mul_self_nonneg v.y, mul_self_nonneg v.z]
    ext
    · exact mul_self_eq_zero.mp hx
    · exact mul_self_eq_zero.mp hy
    · exact mul_self_eq_zero.mp hz

/-- The squared distance from the sphere centre along the ray is the quadratic
`a t^2 + b t + c` whose coefficients both programs compute. -/
theorem sphere_quadratic (r : ray K) (C : vec3 K) (rad t : K) :
    length_squared (r.at_ t - C) - rad * rad
      = dot r.direction r.direction * (t * t) + 2 * dot (r.origin - C) r.direction * t
        + (dot (r.origin - C) (r.origin - C) - rad * rad) := by
  simp only [length_squared, dot, ray.at_, vec3.add_x, vec3.add_y, vec3.add_z, vec3.sub_x,
    vec3.sub_y, vec3.sub_z, vec3.smul_x, vec3.smul_y, vec3.smul_z]
  ring

theorem calculate_color_hit_branch (sqrt : K → K) (pow : K → K → K) (C : vec3 K) (rad : K)
    (r : ray K) (li lp Kd Ks : vec3 K) (m : K)
    (h : 0 < (2 * dot (r.origin - C) r.direction) * (2 * dot (r.origin - C) r.direction)
          - 4 * dot r.direction r.direction * (dot (r.origin - C) (r.origin - C) - rad * rad)) :
    cg_filler.calculate_color sqrt pow C rad r li lp Kd Ks m =
      cg_filler.calculate_color_hit sqrt pow C r li lp Kd Ks m
        ((-(2 * dot (r.origin - C) r.direction)
          - sqrt ((2 * dot (r.origin - C) r.direction) * (2 * dot (r.origin - C) r.direction)
            - 4 * dot r.direction r.direction * (dot (r.origin - C) (r.origin - C) - rad * rad)))
          / (2 * dot r.direction r.direction)) := by
  unfold cg_filler.calculate_color
  simp only [gt_iff_lt]
  rw [if_pos h]

theorem calculate_color_miss_branch (sqrt : K → K) (pow : K → K → K) (C : vec3 K) (rad : K)
    (r : ray K) (li lp Kd Ks : vec3 K) (m : K)
    (h : (2 * dot (r.origin - C) r.direction) * (2 * dot (r.origin - C) r.direction)
          - 4 * dot r.direction r.direction * (dot (r.origin - C) (r.origin - C) - rad * rad) ≤ 0) :
    cg_filler.calculate_color sqrt pow C rad r li lp Kd Ks m = ⟨0, 0, 0⟩ := by
  unfold cg_filler.calculate_color
  simp only [gt_iff_lt]
  rw [if_neg (not_lt.mpr h)]

end Components

/-! ## The near root of a real quadratic -/

section Quadratic

theorem near_root_is_root {a b c : ℝ} (ha : 0 < a) (hd : 0 ≤ b * b - 4 * a * c) :
    a * ((-b - Real.sqrt (b * b - 4 * a * c)) / (2 * a)
        * ((-b - Real.sqrt (b * b - 4 * a * c)) / (2 * a)))
      + b * ((-b - Real.sqrt (b * b - 4 * a * c)) / (2 * a)) + c = 0 := by
  have hs : Real.sqrt (b * b - 4 * a * c) * Real.sqrt (b * b - 4 * a * c) = b * b - 4 * a * c :=
    Real.mul_self_sqrt hd
  have ha0 : a ≠ 0 := ne_of_gt ha
  field_simp
  nlinarith [hs]

end Quadratic

/-! ## Ray-sphere intersection -/

section Intersection

open cg_filler cg_filler_copia

theorem on_sphere_iff (r : ray ℝ) (C : vec3 ℝ) (rad t : ℝ) :
    length_squared (r.at_ t - C) = rad ^ 2 ↔
      dot r.direction r.direction * (t * t) + 2 * dot (r.origin - C) r.direction * t
        + (dot (r.origin - C) (r.origin - C) - rad * rad) = 0 := by
  rw [← sphere_quadratic, pow_two, sub_eq_zero]

theorem sqrt_four : Real.sqrt 4 = 2 := by
  rw [show (4 : ℝ) = 2 ^ 2 by norm_num]
  exact Real.sqrt_sq (by norm_num)

theorem length_mul_self (v : vec3 ℝ) : length Real.sqrt v * length Real.sqrt v = length_squared v :=
  Real.mul_self_sqrt (length_squared_nonneg v)

end Intersection

/-! ## Shading -/

section Shading

open cg_filler cg_filler_copia

variable {K : Type} [LinearOrderedField K]

/-- C5: when the light is behind the surface, `dot(L, N) <= 0` at the hit point
of `calculate_color`, the diffuse vector `Id` is `(0,0,0)` for every
`light_intensity` and `Kd` and the colour returned is the specular term `Ie`;
in the camera variant `diff` is `0` and the diffuse colour `(0,0,0)` whenever
`dot(normal, lightDir) <= 0`. -/
theorem diffuse_zero_when_light_behind (sqrt : K → K) (pow : K → K → K) (C : vec3 K) (rad : K)
    (r : ray K) (li lp Kd Ks : vec3 K) (m t : K)
    (hdisc : 0 < (2 * dot (r.origin - C) r.direction) * (2 * dot (r.origin - C) r.direction)
          - 4 * dot r.direction r.direction * (dot (r.origin - C) (r.origin - C) - rad * rad))
    (ht : t = (-(2 * dot (r.origin - C) r.direction)
          - sqrt ((2 * dot (r.origin - C) r.direction) * (2 * dot (r.origin - C) r.direction)
            - 4 * dot r.direction r.direction * (dot (r.origin - C) (r.origin - C) - rad * rad)))
          / (2 * dot r.direction r.direction))
    (hLN : dot (unit_vector sqrt (lp - r.at_ t)) (unit_vector sqrt (r.at_ t - C)) ≤ 0) :
    (li * Kd * max (dot (unit_vector sqrt (lp - r.at_ t)) (unit_vector sqrt (r.at_ t - C))) 0
        = (⟨0, 0, 0⟩ : vec3 K)) ∧
    (calculate_color sqrt pow C rad r li lp Kd Ks m =
      li * Ks * pow (max (dot (unit_vector sqrt (-r.direction))
        (unit_vector sqrt (reflect (-(unit_vector sqrt (lp - r.at_ t)))
          (unit_vector sqrt (r.at_ t - C))))) 0) m) ∧
    (∀ normal lightDir : vec3 K, dot normal lightDir ≤ 0 →
      diff normal lightDir = 0 ∧ diffuse normal lightDir = ⟨0, 0, 0⟩) := by
  have hmax : max (dot (unit_vector sqrt (lp - r.at_ t)) (unit_vector sqrt (r.at_ t - C))) 0 = 0 :=
    max_eq_right hLN
  refine ⟨?_, ?_, ?_⟩
  · rw [hmax]
    ext <;> simp
  · rw [calculate_color_hit_branch sqrt pow C rad r li lp Kd Ks m hdisc, ← ht]
    unfold calculate_color_hit
    simp only [hmax]
    ext <;> simp
  · intro normal lightDir h
    have hd : diff normal lightDir = 0 := max_eq_left h
    refine ⟨hd, ?_⟩
    unfold diffuse
    simp only [hd]
    ext <;> simp

theorem sqrt_sixteen : Real.sqrt 16 = 4 := by
  rw [show (16 : ℝ) = 4 * 4 by norm_num]
  exact Real.sqrt_mul_self (by norm_num)

/-- C5 witness: the ray from the origin along `(0,0,-1)` hits the sphere of
radius 1 centred at `(0,0,-2)` at `t = 1`, and the light at `(0,0,-5)` is behind
the surface there. -/
theorem diffuse_zero_when_light_behind_witness :
    (⟨1, 1, 1⟩ : vec3 ℝ) * ⟨1, 0, 0⟩
      * max (dot (unit_vector Real.sqrt
                ((⟨0, 0, -5⟩ : vec3 ℝ) - (⟨⟨0, 0, 0⟩, ⟨0, 0, -1⟩⟩ : ray ℝ).at_ 1))
              (unit_vector Real.sqrt
                ((⟨⟨0, 0, 0⟩, ⟨0, 0, -1⟩⟩ : ray ℝ).at_ 1 - ⟨0, 0, -2⟩))) 0
      = (⟨0, 0, 0⟩ : vec3 ℝ) :=
  (diffuse_zero_when_light_behind Real.sqrt Real.rpow ⟨0, 0, -2⟩ 1 ⟨⟨0, 0, 0⟩, ⟨0, 0, -1⟩⟩
    ⟨1, 1, 1⟩ ⟨0, 0, -5⟩ ⟨1, 0, 0⟩ ⟨1, 1, 1⟩ 1 1
    (by norm_num [dot])
    (by
      have hd : (2 * dot ((⟨0, 0, 0⟩ : vec3 ℝ) - ⟨0, 0, -2⟩) ⟨0, 0, -1⟩)
          * (2 * dot ((⟨0, 0, 0⟩ : vec3 ℝ) - ⟨0, 0, -2⟩) ⟨0, 0, -1⟩)
          - 4 * dot (⟨0, 0, -1⟩ : vec3 ℝ) ⟨0, 0, -1⟩
            * (dot ((⟨0, 0, 0⟩ : vec3 ℝ) - ⟨0, 0, -2⟩) ((⟨0, 0, 0⟩ : vec3 ℝ) - ⟨0, 0, -2⟩)
              - 1 * 1) = 4 := by
        norm_num [dot]
      simp only [hd, sqrt_four]
      norm_num [dot])
    (by
      have h1 : length_squared ((⟨0, 0, -5⟩ : vec3 ℝ)
          - (⟨⟨0, 0, 0⟩, ⟨0, 0, -1⟩⟩ : ray ℝ).at_ 1) = 16 := by
        norm_num [length_squared, ray.at_]
      have h2 : length_squared ((⟨⟨0, 0, 0⟩, ⟨0, 0, -1⟩⟩ : ray ℝ).at_ 1
          - (⟨0, 0, -2⟩ : vec3 ℝ)) = 1 := by
        norm_num [length_squared, ray.at_]
      simp only [unit_vector, length, h1, h2, sqrt_sixteen, Real.sqrt_one]
      norm_num [dot, ray.at_])).1

end Shading

/-! ## 8-bit channels and packed pixels -/

section Channels

open cg_filler_copia

variable {K : Type} [LinearOrderedField K]

theorem clamp_scalar_unit (x : K) : 0 ≤ clamp_scalar x 0 1 ∧ clamp_scalar x 0 1 ≤ 1 := by
  unfold clamp_scalar
  split_ifs with h1 h2
  · exact ⟨le_refl _, zero_le_one⟩
  · exact ⟨zero_le_one, le_refl _⟩
  · exact ⟨not_lt.mp h1, not_lt.mp h2⟩

variable [FloorRing K]

theorem to_Uint8_of_nonneg_of_lt {x : K} (h0 : 0 ≤ x) (h1 : x < 256) :
    (to_Uint8 x : ℤ) = Int.floor x := by
  have hf0 : 0 ≤ Int.floor x := Int.floor_nonneg.mpr h0
  have hf1 : Int.floor x < 256 := by
    rw [Int.floor_lt]
    exact_mod_cast h1
  unfold to_Uint8 truncate
  rw [if_pos h0, Int.emod_eq_of_lt hf0 hf1, Int.toNat_of_nonneg hf0]

theorem pack_ARGB_eq {red green blue : Nat} (hr : red < 256) (hg : green < 256)
    (hb : blue < 256) :
    pack_ARGB red green blue = 0xFF000000 + red * 65536 + green * 256 + blue := by
  unfold pack_ARGB
  have h1 : 255 <<< 24 ||| red <<< 16 = 2 ^ 16 * (255 * 2 ^ 8 + red) := by
    rw [Nat.shiftLeft_eq, Nat.shiftLeft_eq]
    have : 255 * 2 ^ 24 = 2 ^ 24 * 255 := by norm_num
    rw [this, ← Nat.mul_add_lt_is_or (by omega) 255]
    norm_num
    omega
  have h2 : 2 ^ 16 * (255 * 2 ^ 8 + red) ||| green <<< 8
      = 2 ^ 8 * (2 ^ 8 * (255 * 2 ^ 8 + red) + green) := by
    rw [Nat.shiftLeft_eq, ← Nat.mul_add_lt_is_or (by omega) (255 * 2 ^ 8 + red)]
    norm_num
    omega
  rw [h1, h2, ← Nat.mul_add_lt_is_or (by omega)]
  norm_num
  omega

end Channels

/-! ## The pixel loops -/

section Loops

theorem row_loop_apply (base : Nat) (g : Nat → Nat) (n : Nat) (px : Nat → Nat) (k : Nat) :
    (List.range n).foldl (fun px i => Function.update px (base + i) (g i)) px k
      = if base ≤ k ∧ k < base + n then g (k - base) else px k := by
  induction n with
  | zero =>
    have : ¬ (base ≤ k ∧ k < base + 0) := by omega
    rw [if_neg this]
    rfl
  | succ n ih =>
    rw [List.range_succ, List.foldl_append, List.foldl_cons, List.foldl_nil]
    by_cases hk : k = base + n
    · subst hk
      have : base ≤ base + n ∧ base + n < base + (n + 1) := by omega
      simp [this]
    · rw [Function.update_noteq hk, ih]
      by_cases h1 : base ≤ k ∧ k < base + n
      · have h2 : base ≤ k ∧ k < base + (n + 1) := by omega
        rw [if_pos h1, if_pos h2]
      · have h2 : ¬ (base ≤ k ∧ k < base + (n + 1)) := by omega
        rw [if_neg h1, if_neg h2]

theorem fill_loop_apply (n val : Nat) (px : Nat → Nat) (k : Nat) :
    fill_loop n val px k = if k < n then val else px k := by
  have h := row_loop_apply 0 (fun _ => val) n px k
  simp only [Nat.zero_add, Nat.zero_le, true_and] at h
  exact h

theorem render_loop_apply (nCol nLin : Nat) (f : Nat → Nat → Nat) (px : Nat → Nat) (k : Nat) :
    render_loop nCol nLin f px k
      = if k < nLin * nCol then f (k % nCol) (k / nCol) else px k := by
  unfold render_loop
  induction nLin with
  | zero => simp
  | succ n ih =>
    rw [List.range_succ, List.foldl_append, List.foldl_cons, List.foldl_nil]
    rw [row_loop_apply (n * nCol) (fun i => f i n) nCol _ k, ih]
    by_cases h1 : n * nCol ≤ k ∧ k < n * nCol + nCol
    · have h2 : k < (n + 1) * nCol := by rw [Nat.succ_mul]; exact h1.2
      have hpos : 0 < nCol := by omega
      have hdiv : k / nCol = n := by
        apply Nat.div_eq_of_lt_le
        · exact h1.1
        · exact h2
      have hmod : k % nCol = k - n * nCol := by
        have := Nat.div_add_mod k nCol
        rw [hdiv] at this
        have h3 : nCol * n = n * nCol := Nat.mul_comm _ _
        omega
      rw [if_pos h1, if_pos h2, hdiv, hmod]
    · rw [if_neg h1]
      by_cases h3 : k < n * nCol
      · have h2 : k < (n + 1) * nCol := by rw [Nat.succ_mul]; omega
        rw [if_pos h3, if_pos h2]
      · have h2 : ¬ k < (n + 1) * nCol := by rw [Nat.succ_mul]; omega
        rw [if_neg h3, if_neg h2]

/-- After the nested loop, the pixel of column `i`, row `j` holds `f i j`. -/
theorem render_loop_pixel (nCol nLin : Nat) (f : Nat → Nat → Nat) (px : Nat → Nat)
    {i j : Nat} (hi : i < nCol) (hj : j < nLin) :
    render_loop nCol nLin f px (j * nCol + i) = f i j := by
  rw [render_loop_apply]
  have h1 : j * nCol + i < nLin * nCol := by
    calc j * nCol + i < j * nCol + nCol := by omega
      _ = (j + 1) * nCol := by rw [Nat.succ_mul]
      _ ≤ nLin * nCol := Nat.mul_le_mul_right _ hj
  have h2 : (j * nCol + i) % nCol = i := by
    rw [Nat.add_comm, Nat.add_mul_mod_self_right]
    exact Nat.mod_eq_of_lt hi
  have h3 : (j * nCol + i) / nCol = j := by
    rw [Nat.add_comm, Nat.add_mul_div_right _ _ (by omega : 0 < nCol), Nat.div_eq_of_lt hi]
    simp
  rw [if_pos h1, h2, h3]

end Loops

/-! ## Background pixels -/

section Background

variable {K : Type} [LinearOrderedField K]

/-- The ray of pixel `(0,0)` of `cg_filler` misses the sphere. -/
theorem cg_filler_corner_pixel_color (sqrt : K → K) (pow : K → K → K) :
    cg_filler.pixel_color sqrt pow 0 0 = ⟨0, 0, 0⟩ := by
  unfold cg_filler.pixel_color
  apply calculate_color_miss_branch
  simp only [cg_filler.pixel_ray, cg_filler.center, cg_filler.rEsfera, cg_filler.wJanela,
    cg_filler.hJanela, cg_filler.dJanela, dot, vec3.sub_x, vec3.sub_y, vec3.sub_z]
  norm_num

variable [FloorRing K]

theorem to_Uint8_zero : to_Uint8 (0 : K) = 0 := by
  unfold to_Uint8 truncate
  simp

theorem SDL_MapRGB_zero : SDL_MapRGB 0 0 0 = 0 := by decide

theorem bgColorUint_eq : cg_filler.bgColorUint K = 6579300 := by
  have h : to_Uint8 (100 : K) = 100 := by
    have h0 : (to_Uint8 (100 : K) : ℤ) = Int.floor (100 : K) :=
      to_Uint8_of_nonneg_of_lt (by norm_num) (by norm_num)
    have h1 : Int.floor (100 : K) = 100 := by
      have := Int.floor_natCast (α := K) 100
      exact_mod_cast this
    rw [h1] at h0
    exact_mod_cast h0
  unfold cg_filler.bgColorUint cg_filler.bgColor
  simp only [h]
  decide

/-- C8, at the failing pixel: in `cg_filler` the ray of pixel `(0,0)` misses the
sphere, `calculate_color` returns black, and after the render loop the pixel
holds `0`, not the packed background colour `0x646464` the buffer was filled
with. -/
theorem cg_filler_background_overwritten (sqrt : K → K) (pow : K → K → K)
    (pixels0 : Nat → Nat) :
    cg_filler.pixel_color sqrt pow 0 0 = ⟨0, 0, 0⟩ ∧
    fill_loop (cg_filler.nCol * cg_filler.nLin) (cg_filler.bgColorUint K) pixels0 0 = 6579300 ∧
    cg_filler.main_pixels sqrt pow pixels0 0 = 0 := by
  refine ⟨cg_filler_corner_pixel_color sqrt pow, ?_, ?_⟩
  · rw [fill_loop_apply, if_pos (by decide), bgColorUint_eq]
  · have h := render_loop_pixel cg_filler.nCol cg_filler.nLin
      (cg_filler.pixel_color_uint sqrt pow)
      (fill_loop (cg_filler.nCol * cg_filler.nLin) (cg_filler.bgColorUint K) pixels0)
      (show 0 < cg_filler.nCol by decide) (show 0 < cg_filler.nLin by decide)
    simp only [Nat.zero_mul, Nat.add_zero] at h
    unfold cg_filler.main_pixels
    rw [h]
    unfold cg_filler.pixel_color_uint
    simp only [cg_filler_corner_pixel_color, to_Uint8_zero, SDL_MapRGB_zero]

theorem miss_pixel_eq : cg_filler_copia.miss_pixel = 0xFF000000 + 173 * 65536 + 216 * 256 + 230 := by
  decide

/-- In the camera variant every pixel whose ray `intersect` reports as missed
holds the packed colour `(173, 216, 230)` with alpha 255, whatever the rounding
of the arithmetic. -/
theorem copia_background_pixel (rnd sqrt tan : K → K) (pow : K → K → K) (t0 : K) {x y : Nat}
    (hx : x < cg_filler_copia.width) (hy : y < cg_filler_copia.height)
    (hmiss : (ieee.intersect rnd sqrt (ieee.pixel_ray rnd sqrt tan x y)
      cg_filler_copia.sphereCenter cg_filler_copia.sphereRadius t0).1 = false) :
    ieee.main_pixels rnd sqrt tan pow t0 (y * cg_filler_copia.width + x)
      = 0xFF000000 + 173 * 65536 + 216 * 256 + 230 := by
  unfold ieee.main_pixels
  rw [render_loop_pixel _ _ _ _ hx hy]
  unfold ieee.pixel_value ieee.pixel_shade
  simp only [hmiss]
  exact miss_pixel_eq

end Background

/-! ## The colours of `cg_filler` stay below one -/

section Black

open cg_filler

theorem length_squared_unit_vector_eq_one {v : vec3 ℝ} (h : 0 < length_squared v) :
    length_squared (unit_vector Real.sqrt v) = 1 := by
  have hqq := length_mul_self v
  have hq : 0 < length Real.sqrt v := Real.sqrt_pos.mpr h
  have hexp : length_squared (unit_vector Real.sqrt v)
      = (1 / length Real.sqrt v) * (1 / length Real.sqrt v) * length_squared v := by
    simp only [length_squared, unit_vector, vec3.div_x, vec3.div_y, vec3.div_z]
    ring
  rw [hexp, ← hqq]
  field_simp

theorem length_squared_reflect (v n : vec3 ℝ) (hn : length_squared n = 1) :
    length_squared (reflect v n) = length_squared v := by
  unfold length_squared at hn
  simp only [length_squared, reflect, dot, vec3.sub_x, vec3.sub_y, vec3.sub_z, vec3.smul_x,
    vec3.smul_y, vec3.smul_z]
  linear_combination
    4 * (v.x * n.x + v.y * n.y + v.z * n.z) * (v.x * n.x + v.y * n.y + v.z * n.z) * hn

theorem length_squared_neg (v : vec3 ℝ) : length_squared (-v) = length_squared v := by
  simp only [length_squared, vec3.neg_x, vec3.neg_y, vec3.neg_z]
  ring

theorem eq_zero_of_length_squared_eq_zero {v : vec3 ℝ} (h : length_squared v = 0) :
    v = ⟨0, 0, 0⟩ := by
  by_contra hne
  exact absurd h (ne_of_gt (length_squared_pos hne))

/-- In the hit branch of `calculate_color`, for the sphere and the light of
`main`, no division is by zero: `a` is positive, the hit point is at distance
`rEsfera` from the centre, and the vectors handed to `unit_vector` for `L`, `V`
and `R` have positive length. -/
theorem cg_filler_hit_branch_defined (r : ray ℝ) (t : ℝ)
    (hdisc : 0 < (2 * dot (r.origin - center) r.direction)
          * (2 * dot (r.origin - center) r.direction)
        - 4 * dot r.direction r.direction
          * (dot (r.origin - center) (r.origin - center) - rEsfera * rEsfera))
    (ht : t = (-(2 * dot (r.origin - center) r.direction)
          - Real.sqrt ((2 * dot (r.origin - center) r.direction)
              * (2 * dot (r.origin - center) r.direction)
            - 4 * dot r.direction r.direction
              * (dot (r.origin - center) (r.origin - center) - rEsfera * rEsfera)))
          / (2 * dot r.direction r.direction)) :
    0 < dot r.direction r.direction ∧
    length Real.sqrt (r.at_ t - center) = rEsfera ∧
    0 < length Real.sqrt (light_position - r.at_ t) ∧
    0 < length Real.sqrt (-r.direction) ∧
    0 < length Real.sqrt (reflect (-(unit_vector Real.sqrt (light_position - r.at_ t)))
      (unit_vector Real.sqrt (r.at_ t - center))) := by
  have ha : 0 < dot r.direction r.direction := by
    rcases lt_or_eq_of_le (length_squared_nonneg r.direction) with h | h
    · exact h
    · exfalso
      have hD := eq_zero_of_length_squared_eq_zero h.symm
      rw [hD] at hdisc
      simp only [dot] at hdisc
      norm_num at hdisc
  have hon : length_squared (r.at_ t - center) = rEsfera ^ 2 := by
    rw [ht]
    exact (on_sphere_iff r center rEsfera _).mpr (near_root_is_root ha hdisc.le)
  have hrad : (rEsfera : ℝ) = 1 / 2 := by unfold rEsfera; norm_num
  have hN : 0 < length_squared (r.at_ t - center) := by rw [hon, hrad]; norm_num
  have hL : 0 < length_squared (light_position - r.at_ t) := by
    rcases lt_or_eq_of_le (length_squared_nonneg (light_position - r.at_ t)) with h | h
    · exact h
    · exfalso
      have hz := eq_zero_of_length_squared_eq_zero h.symm
      have hx := congrArg vec3.x hz
      have hy := congrArg vec3.y hz
      have hz' := congrArg vec3.z hz
      simp only [vec3.sub_x, vec3.sub_y, vec3.sub_z, light_position] at hx hy hz'
      simp only [length_squared, vec3.sub_x, vec3.sub_y, vec3.sub_z, center, dJanela,
        hrad] at hon
      have e1 : (r.at_ t).x = 0 := by linarith
      have e2 : (r.at_ t).y = 5 := by linarith
      have e3 : (r.at_ t).z = 0 := by linarith
      rw [e1, e2, e3] at hon
      norm_num at hon
  refine ⟨ha, ?_, Real.sqrt_pos.mpr hL, ?_, ?_⟩
  · show Real.sqrt (length_squared (r.at_ t - center)) = rEsfera
    rw [hon]
    exact Real.sqrt_sq (by rw [hrad]; norm_num)
  · apply Real.sqrt_pos.mpr
    rw [length_squared_neg]
    exact ha
  · apply Real.sqrt_pos.mpr
    rw [length_squared_reflect _ _ (length_squared_unit_vector_eq_one hN), length_squared_neg,
      length_squared_unit_vector_eq_one hL]
    exact zero_lt_one

end Black

/-! ## `calculate_color` does not clamp -/

section Unclamped

open cg_filler

/-- C7, at the failing input: for the sphere of radius 1 centred at `(0,0,-2)`,
the ray from the origin along `(0,0,-1)`, a white light of intensity `(1,1,1)`
at the origin and the reflection coefficients and exponent of `main`,
`calculate_color` takes its hit branch and returns `(1.3, 0.6, 0.6)`, whose red
channel exceeds 1. -/
theorem calculate_color_exceeds_one :
    calculate_color Real.sqrt Real.rpow ⟨0, 0, -2⟩ 1 ⟨⟨0, 0, 0⟩, ⟨0, 0, -1⟩⟩
        ⟨1, 1, 1⟩ ⟨0, 0, 0⟩ Kd Ks m = ⟨1.3, 0.6, 0.6⟩ ∧
    1 < (calculate_color Real.sqrt Real.rpow ⟨0, 0, -2⟩ 1 ⟨⟨0, 0, 0⟩, ⟨0, 0, -1⟩⟩
        ⟨1, 1, 1⟩ ⟨0, 0, 0⟩ Kd Ks m).x := by
  have hpos : 0 < (2 * dot ((⟨0, 0, 0⟩ : vec3 ℝ) - ⟨0, 0, -2⟩) ⟨0, 0, -1⟩)
      * (2 * dot ((⟨0, 0, 0⟩ : vec3 ℝ) - ⟨0, 0, -2⟩) ⟨0, 0, -1⟩)
      - 4 * dot (⟨0, 0, -1⟩ : vec3 ℝ) ⟨0, 0, -1⟩
        * (dot ((⟨0, 0, 0⟩ : vec3 ℝ) - ⟨0, 0, -2⟩) ((⟨0, 0, 0⟩ : vec3 ℝ) - ⟨0, 0, -2⟩)
          - 1 * 1) := by
    norm_num [dot]
  have hd : (2 * dot ((⟨0, 0, 0⟩ : vec3 ℝ) - ⟨0, 0, -2⟩) ⟨0, 0, -1⟩)
      * (2 * dot ((⟨0, 0, 0⟩ : vec3 ℝ) - ⟨0, 0, -2⟩) ⟨0, 0, -1⟩)
      - 4 * dot (⟨0, 0, -1⟩ : vec3 ℝ) ⟨0, 0, -1⟩
        * (dot ((⟨0, 0, 0⟩ : vec3 ℝ) - ⟨0, 0, -2⟩) ((⟨0, 0, 0⟩ : vec3 ℝ) - ⟨0, 0, -2⟩)
          - 1 * 1) = 4 := by
    norm_num [dot]
  have ht : (-(2 * dot ((⟨0, 0, 0⟩ : vec3 ℝ) - ⟨0, 0, -2⟩) ⟨0, 0, -1⟩) - Real.sqrt 4)
      / (2 * dot (⟨0, 0, -1⟩ : vec3 ℝ) ⟨0, 0, -1⟩) = 1 := by
    rw [sqrt_four]
    norm_num [dot]
  have hval : calculate_color Real.sqrt Real.rpow ⟨0, 0, -2⟩ 1 ⟨⟨0, 0, 0⟩, ⟨0, 0, -1⟩⟩
      ⟨1, 1, 1⟩ ⟨0, 0, 0⟩ Kd Ks m = ⟨1.3, 0.6, 0.6⟩ := by
    rw [calculate_color_hit_branch Real.sqrt Real.rpow ⟨0, 0, -2⟩ 1 ⟨⟨0, 0, 0⟩, ⟨0, 0, -1⟩⟩
      ⟨1, 1, 1⟩ ⟨0, 0, 0⟩ Kd Ks m hpos]
    simp only [hd, ht]
    have hP : (⟨⟨0, 0, 0⟩, ⟨0, 0, -1⟩⟩ : ray ℝ).at_ 1 = ⟨0, 0, -1⟩ := by
      ext <;> simp [ray.at_]
    have hN : unit_vector Real.sqrt ((⟨0, 0, -1⟩ : vec3 ℝ) - ⟨0, 0, -2⟩) = ⟨0, 0, 1⟩ := by
      ext <;> norm_num [unit_vector, length, length_squared]
    have hL : unit_vector Real.sqrt ((⟨0, 0, 0⟩ : vec3 ℝ) - ⟨0, 0, -1⟩) = ⟨0, 0, 1⟩ := by
      ext <;> norm_num [unit_vector, length, length_squared]
    have hV : unit_vector Real.sqrt (-(⟨0, 0, -1⟩ : vec3 ℝ)) = ⟨0, 0, 1⟩ := by
      ext <;> norm_num [unit_vector, length, length_squared]
    have hR : unit_vector Real.sqrt (reflect (-(⟨0, 0, 1⟩ : vec3 ℝ)) ⟨0, 0, 1⟩) = ⟨0, 0, 1⟩ := by
      ext <;> norm_num [unit_vector, length, length_squared, reflect, dot]
    have hdot : dot (⟨0, 0, 1⟩ : vec3 ℝ) ⟨0, 0, 1⟩ = 1 := by norm_num [dot]
    have hpow : Real.rpow (max (1 : ℝ) 0) m = 1 := by
      rw [max_eq_left zero_le_one]
      exact Real.one_rpow _
    unfold calculate_color_hit
    simp only [hP, hN, hL, hV, hR, hdot, hpow]
    ext <;> norm_num [Kd, Ks]
  refine ⟨hval, ?_⟩
  rw [hval]
  norm_num

end Unclamped

/-! ## Rounding to a double -/

section RoundingLemmas
variable {K : Type} [LinearOrderedField K] [FloorRing K]

theorem round_half_even_eq {q : K} {M : Int} (h : |q - (M : K)| < 1 / 2) :
    round_half_even q = M := by
  rw [abs_lt] at h
  obtain ⟨h1, h2⟩ := h
  unfold round_half_even
  by_cases hq : (M : K) ≤ q
  · have hf : Int.floor q = M := by
      rw [Int.floor_eq_iff]
      constructor
      · exact hq
      · linarith
    rw [hf, if_pos (by linarith)]
  · have hq' : q < M := not_le.mp hq
    have hf : Int.floor q = M - 1 := by
      rw [Int.floor_eq_iff]
      push_cast
      constructor
      · linarith
      · linarith
    rw [hf]
    push_cast
    rw [if_neg (by linarith), if_pos (by linarith)]
    ring

theorem log_two_eq {x : K} {e : Int} (hlo : (2 : K) ^ e ≤ x) (hhi : x < (2 : K) ^ (e + 1)) :
    Int.log 2 x = e := by
  have hx : 0 < x := lt_of_lt_of_le (by positivity) hlo
  have h1 : e ≤ Int.log 2 x := by
    have := (Int.zpow_le_iff_le_log (b := 2) (by norm_num) hx (x := e)).mp (by exact_mod_cast hlo)
    exact this
  have h2 : Int.log 2 x < e + 1 := by
    have := (Int.lt_zpow_iff_log_lt (b := 2) (by norm_num) hx (x := e + 1)).mp (by exact_mod_cast hhi)
    exact this
  omega

theorem round_double_eq {x : K} (e M : Int) (hlo : (2 : K) ^ e ≤ |x|) (hhi : |x| < (2 : K) ^ (e + 1))
    (hnear : |x / 2 ^ (e - 52) - (M : K)| < 1 / 2) :
    round_double x = (M : K) * 2 ^ (e - 52) := by
  have hx : x ≠ 0 := by
    intro h
    rw [h, abs_zero] at hlo
    exact absurd hlo (not_le.mpr (by positivity))
  unfold round_double
  rw [if_neg hx, log_two_eq hlo hhi, round_half_even_eq hnear]


theorem round_double_zero : round_double (0 : K) = 0 := by
  unfold round_double
  rw [if_pos rfl]

theorem round_half_even_intCast (M : Int) : round_half_even ((M : K)) = M :=
  round_half_even_eq (by rw [sub_self, abs_zero]; norm_num)

/-- Every `M * 2^j` with `|M| < 2^53` is a `double`: rounding leaves it unchanged. -/
theorem round_double_scaled (M j : Int) (hM : |M| < 2 ^ 53) :
    round_double ((M : K) * 2 ^ j) = (M : K) * 2 ^ j := by
  by_cases h0 : M = 0
  · rw [h0]
    simp [round_double_zero]
  have hx : (M : K) * 2 ^ j ≠ 0 := by
    apply mul_ne_zero
    · exact_mod_cast h0
    · positivity
  have hpos : 0 < |(M : K) * 2 ^ j| := abs_pos.mpr hx
  have habs : |(M : K) * 2 ^ j| = |(M : K)| * 2 ^ j := by
    rw [abs_mul, abs_of_pos (show (0 : K) < 2 ^ j by positivity)]
  have hlog : Int.log 2 |(M : K) * 2 ^ j| - 52 ≤ j := by
    have h1 : ((2 : ℕ) : K) ^ Int.log 2 |(M : K) * 2 ^ j| ≤ |(M : K) * 2 ^ j| :=
      Int.zpow_log_le_self (by norm_num) hpos
    have h2 : |(M : K)| < 2 ^ (53 : Int) := by
      have : ((|M| : Int) : K) < ((2 ^ 53 : Int) : K) := by exact_mod_cast hM
      rw [Int.cast_abs] at this
      calc |(M : K)| < ((2 ^ 53 : Int) : K) := this
        _ = 2 ^ (53 : Int) := by norm_num
    have h3 : |(M : K) * 2 ^ j| < 2 ^ (53 + j) := by
      rw [habs, zpow_add₀ (by norm_num : (2 : K) ≠ 0)]
      exact mul_lt_mul_of_pos_right h2 (by positivity)
    have h4 : (2 : K) ^ Int.log 2 |(M : K) * 2 ^ j| < 2 ^ (53 + j) := by
      calc (2 : K) ^ Int.log 2 |(M : K) * 2 ^ j| ≤ |(M : K) * 2 ^ j| := by exact_mod_cast h1
        _ < 2 ^ (53 + j) := h3
    have h5 := (zpow_lt_zpow_iff_right₀ (by norm_num : (1 : K) < 2)).mp h4
    omega
  obtain ⟨k, hk⟩ : ∃ k : ℕ, j - (Int.log 2 |(M : K) * 2 ^ j| - 52) = k :=
    ⟨(j - (Int.log 2 |(M : K) * 2 ^ j| - 52)).toNat, (Int.toNat_of_nonneg (by omega)).symm⟩
  have hq : (M : K) * 2 ^ j / 2 ^ (Int.log 2 |(M : K) * 2 ^ j| - 52)
      = ((M * 2 ^ k : Int) : K) := by
    rw [mul_div_assoc, ← zpow_sub₀ (by norm_num : (2 : K) ≠ 0), hk]
    push_cast
    rw [zpow_natCast]
  unfold round_double
  rw [if_neg hx, hq, round_half_even_intCast]
  push_cast
  rw [mul_assoc, ← zpow_natCast, ← zpow_add₀ (by norm_num : (2 : K) ≠ 0), ← hk]
  congr 2
  ring

theorem round_double_intCast (M : Int) (hM : |M| < 2 ^ 53) : round_double (M : K) = M := by
  have := round_double_scaled (K := K) M 0 hM
  simpa using this

theorem round_half_even_nonneg {q : K} (h : 0 ≤ q) : 0 ≤ round_half_even q := by
  have hf : 0 ≤ Int.floor q := Int.floor_nonneg.mpr h
  unfold round_half_even
  split_ifs <;> omega

theorem round_half_even_le {q : K} {N : Int} (h : q ≤ N) : round_half_even q ≤ N := by
  have hf : Int.floor q ≤ N := by
    have := Int.floor_le q
    have h2 : ((Int.floor q : Int) : K) ≤ (N : K) := le_trans this h
    exact_mod_cast h2
  rcases lt_or_eq_of_le hf with hlt | heq
  · unfold round_half_even
    split_ifs <;> omega
  · have hq : q = (N : K) := by
      apply le_antisymm h
      rw [← heq]
      exact Int.floor_le q
    rw [hq, round_half_even_intCast]

theorem round_double_nonneg {x : K} (h : 0 ≤ x) : 0 ≤ round_double x := by
  unfold round_double
  split_ifs with h0
  · exact le_refl _
  · apply mul_nonneg
    · have : 0 ≤ round_half_even (x / 2 ^ (Int.log 2 |x| - 52)) :=
        round_half_even_nonneg (div_nonneg h (by positivity))
      exact_mod_cast this
    · positivity

/-- Rounding does not cross a `double`: if `x <= M * 2^j` with `0 < M < 2^53`
then the rounded `x` is at most `M * 2^j`. -/
theorem round_double_le_scaled {x : K} (M j : Int) (hM : M < 2 ^ 53)
    (hx0 : 0 < x) (hx : x ≤ (M : K) * 2 ^ j) : round_double x ≤ (M : K) * 2 ^ j := by
  have hlog : Int.log 2 |x| - 52 ≤ j := by
    have h1 : ((2 : ℕ) : K) ^ Int.log 2 |x| ≤ |x| :=
      Int.zpow_log_le_self (by norm_num) (abs_pos.mpr (ne_of_gt hx0))
    have h2 : (M : K) < 2 ^ (53 : Int) := by
      have : ((M : Int) : K) < ((2 ^ 53 : Int) : K) := by exact_mod_cast hM
      calc (M : K) < ((2 ^ 53 : Int) : K) := this
        _ = 2 ^ (53 : Int) := by norm_num
    have h3 : |x| < 2 ^ (53 + j) := by
      rw [abs_of_pos hx0, zpow_add₀ (by norm_num : (2 : K) ≠ 0)]
      exact lt_of_le_of_lt hx (mul_lt_mul_of_pos_right h2 (by positivity))
    have h4 : (2 : K) ^ Int.log 2 |x| < 2 ^ (53 + j) := by
      calc (2 : K) ^ Int.log 2 |x| ≤ |x| := by exact_mod_cast h1
        _ < 2 ^ (53 + j) := h3
    have h5 := (zpow_lt_zpow_iff_right₀ (by norm_num : (1 : K) < 2)).mp h4
    omega
  obtain ⟨k, hk⟩ : ∃ k : ℕ, j - (Int.log 2 |x| - 52) = k :=
    ⟨(j - (Int.log 2 |x| - 52)).toNat, (Int.toNat_of_nonneg (by omega)).symm⟩
  have hq : x / 2 ^ (Int.log 2 |x| - 52) ≤ ((M * 2 ^ k : Int) : K) := by
    rw [div_le_iff₀ (by positivity)]
    push_cast
    rw [mul_assoc, ← zpow_natCast, ← zpow_add₀ (by norm_num : (2 : K) ≠ 0), ← hk]
    have : j - (Int.log 2 |x| - 52) + (Int.log 2 |x| - 52) = j := by ring
    rw [this]
    exact hx
  have hr := round_half_even_le hq
  unfold round_double
  rw [if_neg (ne_of_gt hx0)]
  have hr' : ((round_half_even (x / 2 ^ (Int.log 2 |x| - 52)) : Int) : K)
      ≤ ((M * 2 ^ k : Int) : K) := by exact_mod_cast hr
  calc ((round_half_even (x / 2 ^ (Int.log 2 |x| - 52)) : Int) : K) * 2 ^ (Int.log 2 |x| - 52)
      ≤ ((M * 2 ^ k : Int) : K) * 2 ^ (Int.log 2 |x| - 52) :=
        mul_le_mul_of_nonneg_right hr' (by positivity)
    _ = (M : K) * 2 ^ j := by
        push_cast
        rw [mul_assoc, ← zpow_natCast, ← zpow_add₀ (by norm_num : (2 : K) ≠ 0), ← hk]
        congr 2
        ring


theorem round_double_nonpos {x : K} (h : x ≤ 0) : round_double x ≤ 0 := by
  unfold round_double
  split_ifs with h0
  · exact le_refl _
  · apply mul_nonpos_of_nonpos_of_nonneg
    · have hq : x / 2 ^ (Int.log 2 |x| - 52) ≤ ((0 : Int) : K) := by
        rw [Int.cast_zero]
        exact div_nonpos_of_nonpos_of_nonneg h (by positivity)
      have := round_half_even_le hq
      exact_mod_cast this
    · positivity

theorem round_double_le_255 {x : K} (h : x ≤ 255) : round_double x ≤ 255 := by
  rcases le_or_lt x 0 with h0 | h0
  · exact le_trans (round_double_nonpos h0) (by norm_num)
  · have := round_double_le_scaled (K := K) 255 0 (by norm_num) h0 (by simpa using h)
    simpa using this

end RoundingLemmas

/-! ## The 8-bit channels of the camera variant -/

section RoundedChannels

open cg_filler_copia

variable {K : Type} [LinearOrderedField K] [FloorRing K]

theorem to_Uint8_rounded_scaled (rnd : K → K) (h0 : ∀ x : K, 0 ≤ x → 0 ≤ rnd x)
    (h255 : ∀ x : K, x ≤ 255 → rnd x ≤ 255) (x : K) (hx0 : 0 ≤ x) (hx1 : x ≤ 1) :
    to_Uint8 (rnd (x * 255)) ≤ 255 ∧ (to_Uint8 (rnd (x * 255)) : ℤ) = Int.floor (rnd (x * 255)) := by
  have hp0 : 0 ≤ rnd (x * 255) := h0 _ (by positivity)
  have hp1 : rnd (x * 255) ≤ 255 := h255 _ (by linarith)
  have hcast := to_Uint8_of_nonneg_of_lt hp0 (lt_of_le_of_lt hp1 (by norm_num))
  refine ⟨?_, hcast⟩
  have hfl : Int.floor (rnd (x * 255)) ≤ 255 := by
    have h := Int.floor_le (rnd (x * 255))
    have h2 : ((Int.floor (rnd (x * 255)) : ℤ) : K) ≤ ((255 : ℤ) : K) := by
      push_cast
      linarith
    exact_mod_cast h2
  have : (to_Uint8 (rnd (x * 255)) : ℤ) ≤ 255 := by rw [hcast]; exact hfl
  exact_mod_cast this

/-- C6, amended: in the camera variant, for every value of the diffuse and
specular terms and every rounding that keeps non-negative values non-negative
and values up to 255 at most 255, each of the three channels written for a hit
is an integer in `[0,255]`, the integer part of the rounded product
`clamp(channel, 0, 1) * 255` of the rounded sum of the two terms; the packed
pixel is `0xFF000000 + red*65536 + green*256 + blue`; and this is the value
stored for every ray that `intersect` reports as hit. -/
theorem hit_channels_rounded (rnd : K → K) (d s : vec3 K)
    (h0 : ∀ x : K, 0 ≤ x → 0 ≤ rnd x) (h255 : ∀ x : K, x ≤ 255 → rnd x ≤ 255) :
    ((ieee.hit_channels rnd d s).1 ≤ 255 ∧
      ((ieee.hit_channels rnd d s).1 : ℤ)
        = Int.floor (rnd (clamp_scalar (rnd (d.x + s.x)) 0 1 * 255))) ∧
    ((ieee.hit_channels rnd d s).2.1 ≤ 255 ∧
      ((ieee.hit_channels rnd d s).2.1 : ℤ)
        = Int.floor (rnd (clamp_scalar (rnd (d.y + s.y)) 0 1 * 255))) ∧
    ((ieee.hit_channels rnd d s).2.2 ≤ 255 ∧
      ((ieee.hit_channels rnd d s).2.2 : ℤ)
        = Int.floor (rnd (clamp_scalar (rnd (d.z + s.z)) 0 1 * 255))) ∧
    ieee.hit_pixel rnd d s = 0xFF000000 + (ieee.hit_channels rnd d s).1 * 65536
      + (ieee.hit_channels rnd d s).2.1 * 256 + (ieee.hit_channels rnd d s).2.2 ∧
    (∀ (sqrt : K → K) (pow : K → K → K) (t0 : K) (r : ray K),
      (ieee.intersect rnd sqrt r sphereCenter sphereRadius t0).1 = true →
      ieee.pixel_shade rnd sqrt pow t0 r =
        ieee.hit_pixel rnd
          (ieee.diffuse rnd
            (ieee.hit_normal rnd sqrt r sphereCenter
              (ieee.intersect rnd sqrt r sphereCenter sphereRadius t0).2)
            (ieee.lightDir rnd sqrt))
          (ieee.specular rnd sqrt pow
            (ieee.at_ rnd r (ieee.intersect rnd sqrt r sphereCenter sphereRadius t0).2)
            (ieee.hit_normal rnd sqrt r sphereCenter
              (ieee.intersect rnd sqrt r sphereCenter sphereRadius t0).2)
            (ieee.lightDir rnd sqrt))) := by
  have hx := clamp_scalar_unit (rnd (d.x + s.x))
  have hy := clamp_scalar_unit (rnd (d.y + s.y))
  have hz := clamp_scalar_unit (rnd (d.z + s.z))
  have hR := to_Uint8_rounded_scaled rnd h0 h255 _ hx.1 hx.2
  have hG := to_Uint8_rounded_scaled rnd h0 h255 _ hy.1 hy.2
  have hB := to_Uint8_rounded_scaled rnd h0 h255 _ hz.1 hz.2
  refine ⟨hR, hG, hB, ?_, ?_⟩
  · unfold ieee.hit_pixel
    exact pack_ARGB_eq (Nat.lt_succ_of_le hR.1) (Nat.lt_succ_of_le hG.1) (Nat.lt_succ_of_le hB.1)
  · intro sqrt pow t0 r hhit
    unfold ieee.pixel_shade
    simp only [hhit, if_true]

/-- The `double` nearest to `0.6`. -/
theorem double_six_tenths :
    round_double (0.6 : ℝ) = 5404319552844595 / 2 ^ 53 := by
  have h := round_double_eq (x := (0.6 : ℝ)) (-1) 5404319552844595
    (by norm_num [abs_of_pos]) (by norm_num [abs_of_pos])
    (by norm_num [abs_lt])
  rw [h]
  norm_num

/-- C6 counterexample: for the diffuse colour `(x, 0, 0)` with `x` the `double`
nearest to `0.6` and no specular term, the red channel written is `153`, while
the integer part of `255 * clamp(x, 0, 1)` is `152`. -/
theorem hit_channels_counterexample :
    (ieee.hit_channels round_double (⟨5404319552844595 / 2 ^ 53, 0, 0⟩ : vec3 ℝ) ⟨0, 0, 0⟩).1
      = 153 ∧
    Int.floor (255 * clamp_scalar ((5404319552844595 / 2 ^ 53 : ℝ) + 0) 0 1) = 152 := by
  have hsum : round_double ((5404319552844595 / 2 ^ 53 : ℝ) + 0) = 5404319552844595 / 2 ^ 53 := by
    have h := round_double_scaled (K := ℝ) 5404319552844595 (-53) (by norm_num)
    norm_num at h ⊢
    exact h
  have hclamp : clamp_scalar (5404319552844595 / 2 ^ 53 : ℝ) 0 1 = 5404319552844595 / 2 ^ 53 := by
    unfold clamp_scalar
    norm_num
  have hprod : round_double ((5404319552844595 / 2 ^ 53 : ℝ) * 255) = 153 := by
    have h := round_double_eq (x := (5404319552844595 / 2 ^ 53 : ℝ) * 255) 7 5383208929591296
      (by norm_num [abs_of_pos]) (by norm_num [abs_of_pos])
      (by norm_num [abs_lt])
    rw [h]
    norm_num
  constructor
  · have h153 : to_Uint8 (153 : ℝ) = 153 := by
      have h := to_Uint8_of_nonneg_of_lt (x := (153 : ℝ)) (by norm_num) (by norm_num)
      have hf : Int.floor (153 : ℝ) = 153 := by
        have := Int.floor_natCast (α := ℝ) 153
        exact_mod_cast this
      rw [hf] at h
      exact_mod_cast h
    simp only [ieee.hit_channels, ieee.add, clamp]
    rw [hsum, hclamp, hprod, h153]
  · rw [add_zero, hclamp, Int.floor_eq_iff]
    norm_num

/-- C6 witness: `round_double` keeps non-negative values non-negative and values
up to 255 at most 255; the red channel of the colour of the counterexample is at
most 255. -/
theorem hit_channels_rounded_witness :
    (ieee.hit_channels round_double (⟨5404319552844595 / 2 ^ 53, 0, 0⟩ : vec3 ℝ) ⟨0, 0, 0⟩).1
      ≤ 255 :=
  (hit_channels_rounded round_double ⟨5404319552844595 / 2 ^ 53, 0, 0⟩ ⟨0, 0, 0⟩
    (fun _ h => round_double_nonneg h) (fun _ h => round_double_le_255 h)).1.1

end RoundedChannels

/-! ## `intersect` in rounded arithmetic -/

section RoundedIntersect

open cg_filler_copia

end RoundedIntersect

/-! ## Doubles met in the examples -/

section Doubles

theorem round_double_one : round_double (1 : ℝ) = 1 := by
  have h := round_double_intCast (K := ℝ) (1) (by norm_num)
  norm_num at h
  exact h

theorem round_double_two : round_double (2 : ℝ) = 2 := by
  have h := round_double_intCast (K := ℝ) (2) (by norm_num)
  norm_num at h
  exact h

theorem sqrt_one_double : round_double (Real.sqrt 1) = 1 := by
  rw [Real.sqrt_one, round_double_one]

theorem sqrt_four_double : round_double (Real.sqrt 4) = 2 := by
  rw [sqrt_four, round_double_two]

theorem sqrt_double_zero : round_double (Real.sqrt 0) = 0 := by
  rw [Real.sqrt_zero, round_double_zero]

end Doubles

/-! ## C1: the line that misses -/

section LineMisses

open cg_filler_copia

end LineMisses

/-! ## C2: the root written -/

section RootWritten

open cg_filler_copia

end RootWritten

/-! ## C4: the ray through the centre -/

section ThroughCentre

open cg_filler_copia

end ThroughCentre

end Esfera
